import Mathlib

/-!
Verification development for the tls-cert-monitor repository.

The Python modules `cache.py`, `metrics.py`, `scanner.py`, `hot_reload.py`,
`config.py` and `api.py` are shallowly embedded below.  Conventions:

* wall-clock instants (Python `time.time()` floats) are modelled as `Rat`;
* Python `int` is modelled as `Int` (or `Nat` where the source value is a
  count that can never be negative);
* external libraries (`json`, `ipaddress`, `cryptography`, the Prometheus
  client registry) are abstracted: serialization is a caller-supplied
  `V → Option Nat` size function (`None` = serialization failure), IP/CIDR
  parsing and matching are caller-supplied boolean oracles, and PKCS#12
  decoding outcomes are given per password as `Option` of the certificate;
* Prometheus label series that no claim mentions (expiration, SAN count,
  info, issuer code, parse-error names) are not tracked; the unlabeled
  gauges, the per-directory `ssl_cert_files_total` gauge, the
  `ssl_cert_duplicate_names` info series and the collector's internal
  counters are tracked, since the claims quantify over them.

All definitions follow the Python source statement by statement; the only
definitions that instead follow the specification's words are the two
clearly marked `*_subtractFirst` reference definitions used to compare the
spec's claimed operation order against the code's.
-/

set_option linter.unusedVariables false
set_option linter.unnecessarySeqFocus false

namespace TlsCertMonitor

/-- Lower-case a string character-wise (models Python `str.lower()` on the
ASCII algorithm names the code handles). -/
def lowerStr (s : String) : String :=
  ⟨s.data.map Char.toLower⟩

/-- Check that `pat` occurs at the start of `s` (helper for substring tests). -/
def leadMatch : List Char → List Char → Bool
  | [], _ => true
  | _ :: _, [] => false
  | a :: as, b :: bs => (a == b) && leadMatch as bs

/-- Check that `pat` occurs somewhere inside `s` (models Python `pat in s`). -/
def hasSub (pat : List Char) : List Char → Bool
  | [] => leadMatch pat []
  | c :: rest => leadMatch pat (c :: rest) || hasSub pat rest

/-- String-level substring test: `strHas s pat` models Python `pat in s`. -/
def strHas (s pat : String) : Bool :=
  hasSub pat.data s.data

/-- Model of Python `"/" in ip_str`: the string contains a slash. -/
def hasSlashStr (s : String) : Bool :=
  s.data.contains '/'

/-! ## metrics.py — module-level helpers -/

namespace Metrics

/-- Embeds `metrics.is_weak_key`: ECDSA/EC is tested before RSA; below the
per-family threshold the key counts as weak; unknown families fall through
to the RSA threshold. -/
def is_weak_key (key_size : Int) (algorithm : String) : Bool :=
  let algorithm_lower := lowerStr algorithm
  if strHas algorithm_lower "ec" || strHas algorithm_lower "ecdsa" then
    decide (key_size < 256)
  else if strHas algorithm_lower "rsa" then
    decide (key_size < 2048)
  else if strHas algorithm_lower "dsa" then
    decide (key_size < 2048)
  else
    decide (key_size < 2048)

/-- Embeds `metrics.is_deprecated_signature_algorithm`. -/
def is_deprecated_signature_algorithm (algorithm : String) : Bool :=
  let algorithm_lower := lowerStr algorithm
  ["md5", "sha1", "md2", "md4"].any (fun alg => strHas algorithm_lower alg)

/-- The projection of a scanner certificate dictionary that
`MetricsCollector.update_certificate_metrics` reads: `serial` is `none` when
the `"serial"` key is missing (the source then defaults it to `"unknown"`),
and the two security flags mirror `is_weak_key` / `is_deprecated_algorithm`. -/
structure CertRecord where
  serial : Option String := none
  path : String := "unknown"
  is_weak_key : Bool := false
  is_deprecated_algorithm : Bool := false
  deriving DecidableEq, Repr

/-- Append `path` to the list held for `serial` (Python
`defaultdict(list)[serial].append(path)`); a fresh serial is appended at the
end, preserving dict insertion order. -/
def appendDup : List (String × List String) → String → String → List (String × List String)
  | [], serial, path => [(serial, [path])]
  | (s, ps) :: rest, serial, path =>
    if s == serial then (s, ps ++ [path]) :: rest
    else (s, ps) :: appendDup rest serial path

/-- Set the value of a labeled gauge/info series, replacing an existing
series for the same label in place or appending a new one. -/
def setLabeled {β : Type} : List (String × β) → String → β → List (String × β)
  | [], label, v => [(label, v)]
  | (l, w) :: rest, label, v =>
    if l == label then (l, v) :: rest
    else (l, w) :: setLabeled rest label v

/-- State of `MetricsCollector` restricted to what the claims observe: the
five current-scan gauges, the per-directory files gauge, the
`ssl_cert_duplicate_names` info series, the internal duplicate index and the
internal current-scan counters. -/
structure MetricsState where
  ssl_certs_parsed_total : Int := 0
  ssl_cert_parse_errors_total : Int := 0
  ssl_cert_weak_key_total : Int := 0
  ssl_cert_deprecated_sigalg_total : Int := 0
  ssl_cert_duplicate_count : Int := 0
  ssl_cert_files_total : List (String × Int) := []
  ssl_cert_duplicate_names : List (String × List String) := []
  duplicate_certificates : List (String × List String) := []
  current_scan_parse_errors : Nat := 0
  current_scan_weak_keys : Nat := 0
  current_scan_deprecated_sigalgs : Nat := 0
  deriving DecidableEq, Repr

/-- Embeds `MetricsCollector.update_certificate_metrics` (the parts acting
on collector state: duplicate tracking keyed on a serial different from
`"unknown"`, and the weak-key / deprecated-algorithm counters). -/
def update_certificate_metrics (m : MetricsState) (cert_data : CertRecord) : MetricsState :=
  let serial := cert_data.serial.getD "unknown"
  let m :=
    if serial != "unknown" then
      { m with duplicate_certificates := appendDup m.duplicate_certificates serial cert_data.path }
    else m
  let m :=
    if cert_data.is_weak_key then
      { m with current_scan_weak_keys := m.current_scan_weak_keys + 1 }
    else m
  let m :=
    if cert_data.is_deprecated_algorithm then
      { m with current_scan_deprecated_sigalgs := m.current_scan_deprecated_sigalgs + 1 }
    else m
  m

/-- Embeds `MetricsCollector.update_scan_metrics`.  The histogram
observation and the wall-clock `ssl_cert_last_scan_timestamp` gauge are not
tracked; `errors_total` is accepted and, as in the source, not used for any
gauge (the gauge takes the internal counter instead). -/
def update_scan_metrics (m : MetricsState) (directory : String) (duration : Rat)
    (files_total parsed_total errors_total : Nat) : MetricsState :=
  { m with
    ssl_cert_files_total := setLabeled m.ssl_cert_files_total directory (files_total : Int)
    ssl_certs_parsed_total := (parsed_total : Int)
    ssl_cert_parse_errors_total := (m.current_scan_parse_errors : Int)
    ssl_cert_weak_key_total := (m.current_scan_weak_keys : Int)
    ssl_cert_deprecated_sigalg_total := (m.current_scan_deprecated_sigalgs : Int) }

/-- Embeds `MetricsCollector.record_parse_error` (the collector-state part:
the current-scan error counter; the error-names info series is untracked). -/
def record_parse_error (m : MetricsState) : MetricsState :=
  { m with current_scan_parse_errors := m.current_scan_parse_errors + 1 }

/-- Embeds `MetricsCollector.update_duplicate_metrics`: serials holding two
or more paths are duplicates; the count gauge is set and one
`ssl_cert_duplicate_names` series per duplicate serial is written. -/
def update_duplicate_metrics (m : MetricsState) : MetricsState :=
  let duplicates := m.duplicate_certificates.filter (fun sp => sp.2.length > 1)
  { m with
    ssl_cert_duplicate_count := (duplicates.length : Int)
    ssl_cert_duplicate_names :=
      duplicates.foldl (fun acc sp => setLabeled acc sp.1 sp.2) m.ssl_cert_duplicate_names }

/-- Embeds `MetricsCollector.reset_scan_metrics`: clears the duplicate index
and the internal counters and zeroes the five current-scan gauges. -/
def reset_scan_metrics (m : MetricsState) : MetricsState :=
  { m with
    duplicate_certificates := []
    current_scan_parse_errors := 0
    current_scan_weak_keys := 0
    current_scan_deprecated_sigalgs := 0
    ssl_certs_parsed_total := 0
    ssl_cert_parse_errors_total := 0
    ssl_cert_weak_key_total := 0
    ssl_cert_deprecated_sigalg_total := 0
    ssl_cert_duplicate_count := 0 }

end Metrics

/-! ## scanner.py -/

namespace Scanner

/-- Embeds the password loop of `CertificateScanner._parse_pkcs12_file`.
`attempts` gives, password by password and in configured order, the outcome
of `pkcs12.load_key_and_certificates` for this file: `some cert` when the
password decrypts the file and yields a certificate, `none` when the attempt
raises or yields no certificate.  The loop keeps the first successful
certificate but never stops early.  The second component counts the decode
attempts actually performed. -/
def pkcs12Loop {Cert : Type} :
    List (Option Cert) → Option Cert → Nat → Option Cert × Nat
  | [], successful_cert, tried => (successful_cert, tried)
  | attempt :: rest, successful_cert, tried =>
    let successful_cert :=
      match successful_cert, attempt with
      | none, some cert => some cert
      | acc, _ => acc
    pkcs12Loop rest successful_cert (tried + 1)

/-- Embeds `CertificateScanner._parse_pkcs12_file` after the file read: run
the password loop over the whole list, return the retained certificate, or
raise when no password produced one.  Also reports how many passwords were
attempted. -/
def parse_pkcs12_file {Cert : Type} (attempts : List (Option Cert)) :
    Except String Cert × Nat :=
  let r := pkcs12Loop attempts none 0
  match r.1 with
  | some cert => (Except.ok cert, r.2)
  | none => (Except.error "Could not decrypt PKCS#12 file with any provided password", r.2)

/-- Outcome of `CertificateScanner._scan_directory` for one configured
directory: either the per-file results (`some record` for a parsed
certificate, `none` for a file whose parse failed and was recorded via
`record_parse_error`), or the directory-level failure branch of `scan_once`
(directory missing/unreadable). -/
inductive DirOutcome where
  | ok (files : List (Option Metrics.CertRecord))
  | failure
  deriving DecidableEq, Repr

/-- Embeds the per-file result loop of `CertificateScanner._scan_directory`:
every file counts as processed; a parsed certificate feeds
`update_certificate_metrics`; a failed file was recorded through
`record_parse_error` inside `_process_certificate_file`.  Returns the new
collector state with the directory's `(certificates_parsed, parse_errors)`. -/
def processFileStep (acc : Metrics.MetricsState × Nat × Nat)
    (file : Option Metrics.CertRecord) : Metrics.MetricsState × Nat × Nat :=
  match file with
  | some cert => (Metrics.update_certificate_metrics acc.1 cert, acc.2.1 + 1, acc.2.2)
  | none => (Metrics.record_parse_error acc.1, acc.2.1, acc.2.2 + 1)

def processDirFiles (m : Metrics.MetricsState) (files : List (Option Metrics.CertRecord)) :
    Metrics.MetricsState × Nat × Nat :=
  files.foldl processFileStep (m, 0, 0)

/-- Embeds the directory loop of `CertificateScanner.scan_once`: on success
the counts are accumulated and `update_scan_metrics` runs for the directory
(scan durations are not modelled and passed as 0); on a directory failure
only the total error count is bumped.  Returns the collector state and the
accumulated `(total_files, total_parsed, total_errors)`. -/
def scanDirs (m : Metrics.MetricsState) :
    List (String × DirOutcome) → Metrics.MetricsState × Nat × Nat × Nat
  | [] => (m, 0, 0, 0)
  | (directory, outcome) :: rest =>
    match outcome with
    | .ok files =>
      let pr := processDirFiles m files
      let m2 := Metrics.update_scan_metrics pr.1 directory 0 files.length pr.2.1 pr.2.2
      let r := scanDirs m2 rest
      (r.1, files.length + r.2.1, pr.2.1 + r.2.2.1, pr.2.2 + r.2.2.2)
    | .failure =>
      let r := scanDirs m rest
      (r.1, r.2.1, r.2.2.1, 1 + r.2.2.2)

/-- Scan summary totals reported by `scan_once`. -/
structure ScanSummary where
  total_files : Nat
  total_parsed : Nat
  total_errors : Nat
  directories_scanned : Nat
  deriving DecidableEq, Repr

/-- Embeds `CertificateScanner.scan_once`: reset the scan metrics, walk the
configured directories in order, and report the summary totals. -/
def scan_once (dirs : List (String × DirOutcome)) (m0 : Metrics.MetricsState) :
    Metrics.MetricsState × ScanSummary :=
  let r := scanDirs (Metrics.reset_scan_metrics m0) dirs
  (r.1, ⟨r.2.1, r.2.2.1, r.2.2.2, dirs.length⟩)

/-- Number of files a directory outcome contributed to the scan
(the files considered after exclusion, all of which are processed). -/
def dirFilesCount : DirOutcome → Nat
  | .ok files => files.length
  | .failure => 0

/-- Number of successfully parsed certificates in a directory outcome. -/
def dirParsedCount : DirOutcome → Nat
  | .ok files => files.countP (fun f => f.isSome)
  | .failure => 0

/-- Number of per-file parse failures in a directory outcome. -/
def dirErrorCount : DirOutcome → Nat
  | .ok files => files.countP (fun f => f.isNone)
  | .failure => 0

end Scanner

/-! ## hot_reload.py -/

namespace HotReload

/-- Certificate file-system event kinds after `CertificateFileHandler` has
folded `closed` into `created`. -/
inductive CertEvent where
  | created
  | modified
  | deleted
  | moved
  deriving DecidableEq, Repr

/-- The externally visible effects of one debounced certificate-change
handling: whether the whole cache was cleared, whether only the single
mtime-based cache key of the file was invalidated, whether
`clear_all_certificate_metrics()` plus `reset_scan_metrics()` ran, and
whether an immediate re-scan was triggered. -/
structure CertChangeAction where
  cache_cleared : Bool
  cache_key_invalidated : Bool
  metrics_cleared : Bool
  rescan_triggered : Bool
  deriving DecidableEq, Repr

/-- Embeds `HotReloadManager._debounced_cert_change` (the branch structure
after the 1.0 s debounce sleep; `fileStillExists` is the result of the
`file_path_obj.exists()` checks). -/
def debounced_cert_change (event_type : CertEvent) (fileStillExists : Bool) : CertChangeAction :=
  let fullCacheClear :=
    (event_type == .created || event_type == .deleted || event_type == .moved)
      || !fileStillExists
  let keyInvalidated := !fullCacheClear && fileStillExists
  let metricsAndRescan :=
    (event_type == .deleted || event_type == .created || event_type == .moved)
      || !fileStillExists
  { cache_cleared := fullCacheClear
    cache_key_invalidated := keyInvalidated
    metrics_cleared := metricsAndRescan
    rescan_triggered := metricsAndRescan }

end HotReload

/-! ## config.py and api.py -/

namespace Config

/-- Embeds `Config.validate_allowed_ips`.  `netOk`/`ipOk` abstract the
`ipaddress.ip_network` / `ipaddress.ip_address` parses (`false` = the parse
raises and the entry is dropped).  After filtering, `127.0.0.1` and `::1`
are appended whenever missing. -/
def validate_allowed_ips (netOk ipOk : String → Bool) (v : List String) : List String :=
  let validated_ips := v.filter (fun ip_str => if hasSlashStr ip_str then netOk ip_str else ipOk ip_str)
  ["127.0.0.1", "::1"].foldl
    (fun acc localhost => if acc.contains localhost then acc else acc ++ [localhost])
    validated_ips

end Config

namespace Api

/-- Outcome of the IP allow-list middleware: pass the request on, or answer
with the 403 rejection naming the client IP. -/
inductive Decision where
  | allowed
  | rejected403 (client_ip : String)
  deriving DecidableEq, Repr

/-- Embeds `ip_whitelist_middleware`.  `cidrContains allowed client`
abstracts `ipaddress.ip_address(client) in ipaddress.ip_network(allowed)`
(`false` also covers the exception branch, which just continues the loop). -/
def ip_whitelist_middleware (enable_ip_whitelist : Bool) (allowed_ips : List String)
    (cidrContains : String → String → Bool) (client_ip : Option String) : Decision :=
  if !enable_ip_whitelist then .allowed
  else
    match client_ip with
    | none => .allowed
    | some ip =>
      let is_allowed := allowed_ips.any
        (fun allowed_ip =>
          if hasSlashStr allowed_ip then cidrContains allowed_ip ip else ip == allowed_ip)
      if is_allowed then .allowed else .rejected403 ip

end Api

/-! ## cache.py -/

namespace Cache

/-- Embeds the `CacheEntry` dataclass.  `value` is the cached payload,
`size` the serialized byte length computed at admission. -/
structure CacheEntry (V : Type) where
  value : V
  timestamp : Rat
  ttl : Int
  size : Nat
  access_count : Nat := 0
  last_access : Rat := 0
  deriving DecidableEq, Repr

/-- Embeds `CacheEntry.is_expired` at instant `now`. -/
def CacheEntry.is_expired {V : Type} (e : CacheEntry V) (now : Rat) : Bool :=
  decide (now - e.timestamp > (e.ttl : Rat))

/-- Embeds `CacheEntry.update_access` at instant `now`. -/
def CacheEntry.update_access {V : Type} (e : CacheEntry V) (now : Rat) : CacheEntry V :=
  { e with access_count := e.access_count + 1, last_access := now }

/-- The mutable state of `CacheManager`: the in-memory dict (insertion
ordered, as Python dicts are), the aggregate size and the hit/access
counters. -/
structure CacheState (V : Type) where
  memory : List (String × CacheEntry V) := []
  current_size : Int := 0
  access_count : Nat := 0
  hit_count : Nat := 0
  deriving DecidableEq, Repr

/-- Python `self._memory_cache[key]` / `key in self._memory_cache`: the
entry stored under `key`, if any. -/
def lookupEntry {V : Type} (mem : List (String × CacheEntry V)) (key : String) :
    Option (CacheEntry V) :=
  match mem.find? (fun kv => kv.1 == key) with
  | some kv => some kv.2
  | none => none

/-- Python `self._memory_cache[key] = entry`: replace in place when the key
exists (dict assignment keeps the key's position), append otherwise. -/
def setEntry {V : Type} : List (String × CacheEntry V) → String → CacheEntry V →
    List (String × CacheEntry V)
  | [], key, e => [(key, e)]
  | (k, old) :: rest, key, e =>
    if k == key then (key, e) :: rest
    else (k, old) :: setEntry rest key e

/-- Python `del self._memory_cache[key]`. -/
def delKey {V : Type} : List (String × CacheEntry V) → String → List (String × CacheEntry V)
  | [], _ => []
  | (k, e) :: rest, key =>
    if k == key then rest
    else (k, e) :: delKey rest key

/-- Sum of the live entries' `size` fields. -/
def sumSizes {V : Type} (mem : List (String × CacheEntry V)) : Int :=
  (mem.map (fun kv => (kv.2.size : Int))).sum

/-- Embeds `CacheManager.get` at instant `now`: count the access; a missing
key is a miss; an expired entry is deleted and reported as a miss; otherwise
the entry's access statistics are updated in place and the value returned as
a hit. -/
def get {V : Type} (now : Rat) (key : String) (s : CacheState V) :
    Option V × CacheState V :=
  let s := { s with access_count := s.access_count + 1 }
  match lookupEntry s.memory key with
  | none => (none, s)
  | some entry =>
    if entry.is_expired now then
      (none,
        { s with
          memory := delKey s.memory key
          current_size := s.current_size - (entry.size : Int) })
    else
      (some entry.value,
        { s with
          memory := setEntry s.memory key (entry.update_access now)
          hit_count := s.hit_count + 1 })

/-- The inner loop of `CacheManager._ensure_space`: walk the entries in
ascending last-access order, stopping as soon as
`current_size + needed - freed ≤ max_size`; return the keys deleted and the
bytes freed. -/
def evictLoop {V : Type} (max_size : Int) (needed : Nat) (current_size : Int) :
    List (String × CacheEntry V) → Nat → List String × Nat
  | [], freed => ([], freed)
  | (key, entry) :: rest, freed =>
    if current_size + (needed : Int) - (freed : Int) ≤ max_size then ([], freed)
    else
      let r := evictLoop max_size needed current_size rest (freed + entry.size)
      (key :: r.1, r.2)

/-- Stable insertion used by `sortByAccess`: an element moves past entries
with a strictly larger `last_access` only, so Python's stable `sorted` tie
behaviour (insertion order) is preserved. -/
def insertByAccess {V : Type} (p : String × CacheEntry V) :
    List (String × CacheEntry V) → List (String × CacheEntry V)
  | [] => [p]
  | q :: rest =>
    if p.2.last_access ≤ q.2.last_access then p :: q :: rest
    else q :: insertByAccess p rest

/-- Python `sorted(self._memory_cache.items(), key=lambda item: item[1].last_access)`:
a stable sort of the insertion-ordered dict items by last access time. -/
def sortByAccess {V : Type} : List (String × CacheEntry V) → List (String × CacheEntry V)
  | [] => []
  | p :: rest => insertByAccess p (sortByAccess rest)

/-- Embeds `CacheManager._ensure_space`: nothing happens while the new entry
fits; otherwise evict in ascending last-access order until it fits (or the
cache is empty) and subtract the freed bytes. -/
def ensure_space {V : Type} (max_size : Int) (needed : Nat) (s : CacheState V) :
    CacheState V :=
  if s.current_size + (needed : Int) ≤ max_size then s
  else
    let entries_by_access := sortByAccess s.memory
    let r := evictLoop max_size needed s.current_size entries_by_access 0
    { s with
      memory := s.memory.filter (fun kv => !(r.1.contains kv.1))
      current_size := s.current_size - (r.2 : Int) }

/-- Embeds `CacheManager.set` at instant `now`.  `serializeLen` abstracts
`len(json.dumps(value).encode("utf-8"))`; `none` models the
`TypeError`/`ValueError` branch, which returns without admitting anything.
Space is ensured first, then the replaced entry's old size (if the key still
exists) is subtracted, then the new entry is stored. -/
def set {V : Type} (serializeLen : V → Option Nat) (max_size default_ttl : Int)
    (now : Rat) (key : String) (value : V) (ttl : Option Int) (s : CacheState V) :
    CacheState V :=
  let entry_ttl := ttl.getD default_ttl
  match serializeLen value with
  | none => s
  | some size =>
    let s1 := ensure_space max_size size s
    let entry : CacheEntry V :=
      { value := value, timestamp := now, ttl := entry_ttl, size := size }
    let s2 :=
      match lookupEntry s1.memory key with
      | some old_entry => { s1 with current_size := s1.current_size - (old_entry.size : Int) }
      | none => s1
    { s2 with
      memory := setEntry s2.memory key entry
      current_size := s2.current_size + (size : Int) }

/-- Embeds `CacheManager.delete`. -/
def delete {V : Type} (key : String) (s : CacheState V) : Bool × CacheState V :=
  match lookupEntry s.memory key with
  | some entry =>
    (true,
      { s with
        memory := delKey s.memory key
        current_size := s.current_size - (entry.size : Int) })
  | none => (false, s)

/-- Embeds `CacheManager.clear`. -/
def clear {V : Type} (s : CacheState V) : CacheState V :=
  { s with memory := [], current_size := 0 }

/-- The dictionary returned by `CacheManager.get_stats`. -/
structure CacheStats where
  entries_total : Nat
  current_size_bytes : Int
  max_size_bytes : Int
  hit_rate : Rat
  total_accesses : Nat
  cache_hits : Nat
  cache_misses : Int
  deriving DecidableEq, Repr

/-- Embeds `CacheManager.get_stats` (hit counts over accesses, guarded
against a zero denominator). -/
def get_stats {V : Type} (max_size : Int) (s : CacheState V) : CacheStats :=
  let hit_rate : Rat :=
    if s.access_count > 0 then (s.hit_count : Rat) / (s.access_count : Rat) else 0
  { entries_total := s.memory.length
    current_size_bytes := s.current_size
    max_size_bytes := max_size
    hit_rate := hit_rate
    total_accesses := s.access_count
    cache_hits := s.hit_count
    cache_misses := (s.access_count : Int) - (s.hit_count : Int) }

/-- One `Set` call of a run: its instant, key, value and optional TTL. -/
structure SetOp (V : Type) where
  now : Rat
  key : String
  value : V
  ttl : Option Int := none
  deriving Repr

/-- Run a sequence of `Set` operations against a freshly initialized cache
(empty memory, zero size and counters). -/
def applyOps {V : Type} (serializeLen : V → Option Nat) (max_size default_ttl : Int)
    (ops : List (SetOp V)) : CacheState V :=
  ops.foldl (fun s op => set serializeLen max_size default_ttl op.now op.key op.value op.ttl s) {}

/-- Well-formedness of a cache state: the dict's keys are distinct and the
aggregate size is the sum of the live entries' sizes. -/
def WF {V : Type} (s : CacheState V) : Prop :=
  (s.memory.map Prod.fst).Nodup ∧ sumSizes s.memory = s.current_size

/-- Reference definition following the specification's words for claim C4
(NOT the source): "If the replacing entry already exists, its old size is
subtracted first", i.e. before the eviction check, which then runs on the
reduced `current_size`. -/
def set_subtractFirst {V : Type} (serializeLen : V → Option Nat) (max_size default_ttl : Int)
    (now : Rat) (key : String) (value : V) (ttl : Option Int) (s : CacheState V) :
    CacheState V :=
  let entry_ttl := ttl.getD default_ttl
  match serializeLen value with
  | none => s
  | some size =>
    let s0 :=
      match lookupEntry s.memory key with
      | some old_entry => { s with current_size := s.current_size - (old_entry.size : Int) }
      | none => s
    let s1 := ensure_space max_size size s0
    let entry : CacheEntry V :=
      { value := value, timestamp := now, ttl := entry_ttl, size := size }
    { s1 with
      memory := setEntry s1.memory key entry
      current_size := s1.current_size + (size : Int) }

/-- The eviction key list expressed as in the amended claim C4: walk the
last-access-sorted entries, evicting while the running size together with
the incoming entry still exceeds the cap. -/
def specEvictKeys {V : Type} (max_size : Int) (needed : Nat) :
    Int → List (String × CacheEntry V) → List String
  | _, [] => []
  | running, (key, entry) :: rest =>
    if running + (needed : Int) ≤ max_size then []
    else key :: specEvictKeys max_size needed (running - (entry.size : Int)) rest

/-- Reference definition following the amended claim C4: the eviction check
runs first, on a `current_size` that still includes the old entry; evicted
are the last-access-ascending entries (ties in insertion order) needed to
make the new entry fit; afterwards the old entry's size is subtracted if the
key survived, and the new entry is stored. -/
def set_amended {V : Type} (serializeLen : V → Option Nat) (max_size default_ttl : Int)
    (now : Rat) (key : String) (value : V) (ttl : Option Int) (s : CacheState V) :
    CacheState V :=
  let entry_ttl := ttl.getD default_ttl
  match serializeLen value with
  | none => s
  | some size =>
    let doomed :=
      if s.current_size + (size : Int) ≤ max_size then []
      else specEvictKeys max_size size s.current_size (sortByAccess s.memory)
    let s1 : CacheState V :=
      { s with
        memory := s.memory.filter (fun kv => !(doomed.contains kv.1))
        current_size :=
          s.current_size - sumSizes (s.memory.filter (fun kv => doomed.contains kv.1)) }
    let s2 :=
      match lookupEntry s1.memory key with
      | some old_entry => { s1 with current_size := s1.current_size - (old_entry.size : Int) }
      | none => s1
    { s2 with
      memory := setEntry s2.memory key { value := value, timestamp := now, ttl := entry_ttl, size := size }
      current_size := s2.current_size + (size : Int) }

/-- Serializer model used by the concrete cache scenarios: value `n`
serializes to `n` bytes. -/
def natSize : Nat → Option Nat := fun n => some n

/-- Concrete cache reached by two `Set`s against a 10-byte cache: entry
`"a"` of size 5 and entry `"k"` of size 4, both inserted at instant 0. -/
def twoEntryState : CacheState Nat :=
  set natSize 10 3600 0 "k" 4 none (set natSize 10 3600 0 "a" 5 none {})

end Cache

/-! ## Theorems -/

theorem pkcs12Loop_spec {Cert : Type} (attempts : List (Option Cert))
    (acc : Option Cert) (n : Nat) :
    Scanner.pkcs12Loop attempts acc n =
      ((match acc with
        | some c => some c
        | none => attempts.findSome? id), n + attempts.length) := by
  induction attempts generalizing acc n with
  | nil => cases acc <;> simp [Scanner.pkcs12Loop, List.findSome?]
  | cons a rest ih =>
    cases acc with
    | some c =>
      cases a <;> simp [Scanner.pkcs12Loop, ih] <;> omega
    | none =>
      cases a <;> simp [Scanner.pkcs12Loop, ih, List.findSome?_cons] <;> omega

/-- C6: parsing a `.p12`/`.pfx` file attempts PKCS#12 decoding with every
configured password in order, continuing through the whole list even after
one password succeeds (the attempt count always equals the password count);
the certificate of the first successful password is retained, and if all
passwords fail the parse raises
"Could not decrypt PKCS#12 file with any provided password". -/
theorem c6_pkcs12_password_loop {Cert : Type} (attempts : List (Option Cert)) :
    (Scanner.parse_pkcs12_file attempts).2 = attempts.length ∧
    (Scanner.parse_pkcs12_file attempts).1 =
      (match attempts.findSome? id with
       | some cert => Except.ok cert
       | none =>
         Except.error "Could not decrypt PKCS#12 file with any provided password") := by
  unfold Scanner.parse_pkcs12_file
  rw [pkcs12Loop_spec]
  cases hf : attempts.findSome? id <;> simp [hf]

/-- C2 counterexample: after the debounce, a `modified` event on a file that
still exists does not clear the cache, does not clear/reset the metrics and
does not trigger a re-scan — unlike a `created` event, contradicting the
claim that it is handled "exactly as" created/deleted/moved. -/
theorem c2_counterexample :
    HotReload.debounced_cert_change .modified true ≠
      HotReload.debounced_cert_change .created true
    ∧ (HotReload.debounced_cert_change .modified true).cache_cleared = false
    ∧ (HotReload.debounced_cert_change .modified true).metrics_cleared = false
    ∧ (HotReload.debounced_cert_change .modified true).rescan_triggered = false
    ∧ (HotReload.debounced_cert_change .modified true).cache_key_invalidated = true := by
  decide

/-- C2 (amended): after the 1.0 s debounce, a `modified` event on a file
that still exists only invalidates that file's mtime-based cache key — no
full cache clear, no metric clearing and no immediate re-scan; the full
treatment (clear entire cache, clear all certificate metrics plus reset scan
metrics, immediate re-scan) applies to `created`, `deleted` and `moved`
events and to `modified` events whose file no longer exists. -/
theorem c2_modified_event_handling :
    HotReload.debounced_cert_change .modified true =
      ⟨false, true, false, false⟩
    ∧ (∀ ex : Bool, HotReload.debounced_cert_change .created ex = ⟨true, false, true, true⟩)
    ∧ (∀ ex : Bool, HotReload.debounced_cert_change .deleted ex = ⟨true, false, true, true⟩)
    ∧ (∀ ex : Bool, HotReload.debounced_cert_change .moved ex = ⟨true, false, true, true⟩)
    ∧ HotReload.debounced_cert_change .modified false = ⟨true, false, true, true⟩ := by
  decide

theorem mem_validate_allowed_ips_localhost (netOk ipOk : String → Bool)
    (ips : List String) :
    "127.0.0.1" ∈ Config.validate_allowed_ips netOk ipOk ips := by
  unfold Config.validate_allowed_ips
  simp only [List.foldl]
  set validated := ips.filter
    (fun ip_str => if hasSlashStr ip_str then netOk ip_str else ipOk ip_str) with hv
  have h1 : "127.0.0.1" ∈
      (if validated.contains "127.0.0.1" then validated
       else validated ++ ["127.0.0.1"]) := by
    cases hc : validated.contains "127.0.0.1" with
    | false => simp [hc]
    | true =>
      simp only [hc, if_pos]
      simpa using hc
  set step1 := (if validated.contains "127.0.0.1" then validated
                else validated ++ ["127.0.0.1"])
  cases hc2 : step1.contains "::1" with
  | false => simp [hc2, h1]
  | true => simpa [hc2] using h1

/-- C7: with the IP whitelist enabled, a request whose client IP is
`127.0.0.1` is always allowed — never answered with the 403 rejection —
whatever allowed-IPs list was configured, because config validation always
adds `127.0.0.1` (and `::1`) to the effective list. -/
theorem c7_localhost_always_allowed (netOk ipOk : String → Bool)
    (cidrContains : String → String → Bool) (ips : List String) :
    Api.ip_whitelist_middleware true (Config.validate_allowed_ips netOk ipOk ips)
      cidrContains (some "127.0.0.1") = .allowed := by
  have hmem := mem_validate_allowed_ips_localhost netOk ipOk ips
  unfold Api.ip_whitelist_middleware
  have hany : (Config.validate_allowed_ips netOk ipOk ips).any
      (fun allowed_ip =>
        if hasSlashStr allowed_ip then cidrContains allowed_ip "127.0.0.1"
        else "127.0.0.1" == allowed_ip) = true := by
    refine List.any_eq_true.mpr ⟨"127.0.0.1", hmem, ?_⟩
    have hs : hasSlashStr "127.0.0.1" = false := by decide
    simp [hs]
  simp [hany]

/-- C8: `is_weak_key` classifies by substring on the lower-cased algorithm
name, testing the `ec`/`ecdsa` family before `rsa`: the elliptic-curve
family is weak exactly below 256 bits, and every other family (`rsa`, `dsa`
or unknown, which is treated as RSA) is weak exactly below 2048 bits; in
particular RSA 1024 is weak and RSA 2048 is not, ECDSA 160 is weak and
ECDSA 256 is not, DSA 1024 is weak and DSA 2048 is not. -/
theorem c8_weak_key_classification :
    (∀ (key_size : Int) (algorithm : String),
      Metrics.is_weak_key key_size algorithm =
        if strHas (lowerStr algorithm) "ec" || strHas (lowerStr algorithm) "ecdsa" then
          decide (key_size < 256)
        else
          decide (key_size < 2048))
    ∧ Metrics.is_weak_key 1024 "RSA" = true
    ∧ Metrics.is_weak_key 2048 "RSA" = false
    ∧ Metrics.is_weak_key 160 "ECDSA" = true
    ∧ Metrics.is_weak_key 256 "ECDSA" = false
    ∧ Metrics.is_weak_key 1024 "DSA" = true
    ∧ Metrics.is_weak_key 2048 "DSA" = false := by
  refine ⟨?_, by decide, by decide, by decide, by decide, by decide, by decide⟩
  intro key_size algorithm
  simp only [Metrics.is_weak_key]
  split_ifs <;> rfl

theorem update_certificate_metrics_dup (m : Metrics.MetricsState)
    (cd : Metrics.CertRecord) :
    (Metrics.update_certificate_metrics m cd).duplicate_certificates =
      (if cd.serial.getD "unknown" != "unknown" then
        Metrics.appendDup m.duplicate_certificates (cd.serial.getD "unknown") cd.path
      else m.duplicate_certificates)
    ∧ (Metrics.update_certificate_metrics m cd).ssl_cert_duplicate_names =
        m.ssl_cert_duplicate_names := by
  unfold Metrics.update_certificate_metrics
  split_ifs <;> simp_all

theorem foldl_update_certificate_metrics_dup (certs : List Metrics.CertRecord)
    (m m' : Metrics.MetricsState)
    (h : m.duplicate_certificates = m'.duplicate_certificates) :
    (certs.foldl Metrics.update_certificate_metrics m).duplicate_certificates =
      ((certs.filter (fun cd => cd.serial.getD "unknown" != "unknown")).foldl
        Metrics.update_certificate_metrics m').duplicate_certificates := by
  induction certs generalizing m m' with
  | nil => simpa using h
  | cons cd rest ih =>
    by_cases hk : (cd.serial.getD "unknown" != "unknown") = true
    · have hstep : (Metrics.update_certificate_metrics m cd).duplicate_certificates =
          (Metrics.update_certificate_metrics m' cd).duplicate_certificates := by
        rw [(update_certificate_metrics_dup m cd).1,
            (update_certificate_metrics_dup m' cd).1, h]
      simpa [List.filter_cons, hk] using
        ih (Metrics.update_certificate_metrics m cd)
           (Metrics.update_certificate_metrics m' cd) hstep
    · have hstep : (Metrics.update_certificate_metrics m cd).duplicate_certificates =
          m'.duplicate_certificates := by
        rw [(update_certificate_metrics_dup m cd).1]
        simp only [hk, if_false]
        exact h
      simpa [List.filter_cons, hk] using
        ih (Metrics.update_certificate_metrics m cd) m' hstep

theorem foldl_update_certificate_metrics_names (certs : List Metrics.CertRecord)
    (m : Metrics.MetricsState) :
    (certs.foldl Metrics.update_certificate_metrics m).ssl_cert_duplicate_names =
      m.ssl_cert_duplicate_names := by
  induction certs generalizing m with
  | nil => rfl
  | cons cd rest ih =>
    simpa [(update_certificate_metrics_dup m cd).2] using
      ih (Metrics.update_certificate_metrics m cd)

theorem mem_keys_appendDup (idx : List (String × List String)) (serial path x : String)
    (hx : x ∈ (Metrics.appendDup idx serial path).map Prod.fst) :
    x ∈ idx.map Prod.fst ∨ x = serial := by
  induction idx with
  | nil =>
    simp only [Metrics.appendDup, List.map_cons, List.map_nil, List.mem_singleton] at hx
    exact Or.inr hx
  | cons sp rest ih =>
    rcases sp with ⟨s, ps⟩
    by_cases hs : (s == serial) = true
    · simp only [Metrics.appendDup, hs, if_pos] at hx
      exact Or.inl hx
    · simp only [Metrics.appendDup, hs, Bool.false_eq_true, if_false, List.map_cons,
        List.mem_cons] at hx
      simp only [List.map_cons, List.mem_cons]
      rcases hx with hx | hx
      · exact Or.inl (Or.inl hx)
      · rcases ih hx with h | h
        · exact Or.inl (Or.inr h)
        · exact Or.inr h

theorem unknown_not_in_foldl_dup (certs : List Metrics.CertRecord)
    (m : Metrics.MetricsState)
    (h : "unknown" ∉ m.duplicate_certificates.map Prod.fst) :
    "unknown" ∉
      (certs.foldl Metrics.update_certificate_metrics m).duplicate_certificates.map Prod.fst := by
  induction certs generalizing m with
  | nil => simpa using h
  | cons cd rest ih =>
    simp only [List.foldl_cons]
    refine ih (Metrics.update_certificate_metrics m cd) ?_
    intro hmem
    rw [(update_certificate_metrics_dup m cd).1] at hmem
    by_cases hk : (cd.serial.getD "unknown" != "unknown") = true
    · simp only [hk, if_pos] at hmem
      rcases mem_keys_appendDup _ _ _ _ hmem with hmem | hmem
      · exact h hmem
      · simp only [bne_iff_ne, ne_eq] at hk
        exact hk hmem.symm
    · simp only [hk, Bool.false_eq_true, if_false] at hmem
      exact h hmem

/-- C9: a certificate record whose serial field is missing (so the collector
reads it as "unknown") is never added to the duplicate index: the index, the
`ssl_cert_duplicate_count` gauge and the `ssl_cert_duplicate_names` series
after a scan are the same as if all such records were dropped from the scan,
and "unknown" is never a key of the duplicate index. -/
theorem c9_unknown_serial_never_duplicate (certs : List Metrics.CertRecord)
    (m0 : Metrics.MetricsState) :
    ((certs.foldl Metrics.update_certificate_metrics
        (Metrics.reset_scan_metrics m0)).duplicate_certificates =
      ((certs.filter (fun cd => cd.serial.getD "unknown" != "unknown")).foldl
        Metrics.update_certificate_metrics
        (Metrics.reset_scan_metrics m0)).duplicate_certificates)
    ∧ "unknown" ∉
        (certs.foldl Metrics.update_certificate_metrics
          (Metrics.reset_scan_metrics m0)).duplicate_certificates.map Prod.fst
    ∧ (Metrics.update_duplicate_metrics
        (certs.foldl Metrics.update_certificate_metrics
          (Metrics.reset_scan_metrics m0))).ssl_cert_duplicate_count =
      (Metrics.update_duplicate_metrics
        ((certs.filter (fun cd => cd.serial.getD "unknown" != "unknown")).foldl
          Metrics.update_certificate_metrics
          (Metrics.reset_scan_metrics m0))).ssl_cert_duplicate_count
    ∧ (Metrics.update_duplicate_metrics
        (certs.foldl Metrics.update_certificate_metrics
          (Metrics.reset_scan_metrics m0))).ssl_cert_duplicate_names =
      (Metrics.update_duplicate_metrics
        ((certs.filter (fun cd => cd.serial.getD "unknown" != "unknown")).foldl
          Metrics.update_certificate_metrics
          (Metrics.reset_scan_metrics m0))).ssl_cert_duplicate_names := by
  have hidx := foldl_update_certificate_metrics_dup certs
    (Metrics.reset_scan_metrics m0) (Metrics.reset_scan_metrics m0) rfl
  have hnames1 := foldl_update_certificate_metrics_names certs (Metrics.reset_scan_metrics m0)
  have hnames2 := foldl_update_certificate_metrics_names
    (certs.filter (fun cd => cd.serial.getD "unknown" != "unknown"))
    (Metrics.reset_scan_metrics m0)
  have hun := unknown_not_in_foldl_dup certs (Metrics.reset_scan_metrics m0)
    (by simp [Metrics.reset_scan_metrics])
  refine ⟨hidx, hun, ?_, ?_⟩
  · simp [Metrics.update_duplicate_metrics, hidx]
  · simp [Metrics.update_duplicate_metrics, hidx, hnames1, hnames2]

/-- C10: `get_stats` never divides by zero: the hit rate is
`cache_hits / total_accesses` exactly when at least one access happened (and
then multiplying back by the access count recovers the hit count, so the
denominator is non-zero), it is 0 when no access happened, and the reported
miss count is always `total_accesses − cache_hits`. -/
theorem c10_get_stats_no_division_by_zero {V : Type} (max_size : Int)
    (s : Cache.CacheState V) :
    (s.access_count > 0 →
      (Cache.get_stats max_size s).hit_rate = (s.hit_count : Rat) / (s.access_count : Rat)
      ∧ (Cache.get_stats max_size s).hit_rate * (s.access_count : Rat) = (s.hit_count : Rat))
    ∧ (s.access_count = 0 → (Cache.get_stats max_size s).hit_rate = 0)
    ∧ (Cache.get_stats max_size s).cache_misses =
        (s.access_count : Int) - (s.hit_count : Int) := by
  refine ⟨fun hpos => ⟨?_, ?_⟩, fun hzero => ?_, rfl⟩
  · simp [Cache.get_stats, hpos]
  · have hne : (s.access_count : Rat) ≠ 0 := by
      exact_mod_cast Nat.pos_iff_ne_zero.mp hpos
    simp [Cache.get_stats, hpos, div_mul_cancel₀ _ hne]
  · simp [Cache.get_stats, hzero]

theorem sumSizes_nil {V : Type} : Cache.sumSizes ([] : List (String × Cache.CacheEntry V)) = 0 :=
  rfl

theorem sumSizes_cons {V : Type} (kv : String × Cache.CacheEntry V)
    (l : List (String × Cache.CacheEntry V)) :
    Cache.sumSizes (kv :: l) = (kv.2.size : Int) + Cache.sumSizes l := by
  simp [Cache.sumSizes]

theorem sumSizes_append {V : Type} (l1 l2 : List (String × Cache.CacheEntry V)) :
    Cache.sumSizes (l1 ++ l2) = Cache.sumSizes l1 + Cache.sumSizes l2 := by
  simp [Cache.sumSizes]

theorem sumSizes_nonneg {V : Type} (l : List (String × Cache.CacheEntry V)) :
    0 ≤ Cache.sumSizes l := by
  induction l with
  | nil => simp [sumSizes_nil]
  | cons kv rest ih => rw [sumSizes_cons]; positivity

theorem sumSizes_perm {V : Type} {l l' : List (String × Cache.CacheEntry V)}
    (h : l.Perm l') : Cache.sumSizes l = Cache.sumSizes l' := by
  unfold Cache.sumSizes
  exact (h.map _).sum_eq

theorem sumSizes_filter_partition {V : Type} (p : String × Cache.CacheEntry V → Bool)
    (l : List (String × Cache.CacheEntry V)) :
    Cache.sumSizes l =
      Cache.sumSizes (l.filter p) + Cache.sumSizes (l.filter (fun kv => !(p kv))) := by
  induction l with
  | nil => simp [sumSizes_nil]
  | cons kv rest ih =>
    by_cases hp : p kv = true
    · simp only [List.filter_cons, hp, Bool.not_true, Bool.false_eq_true, if_true, if_false,
        sumSizes_cons]
      rw [ih]; ring
    · simp only [Bool.not_eq_true] at hp
      simp only [List.filter_cons, hp, Bool.not_false, Bool.false_eq_true, if_true, if_false,
        sumSizes_cons]
      rw [ih]; ring

theorem insertByAccess_perm {V : Type} (p : String × Cache.CacheEntry V)
    (l : List (String × Cache.CacheEntry V)) :
    (Cache.insertByAccess p l).Perm (p :: l) := by
  induction l with
  | nil => exact List.Perm.refl _
  | cons q rest ih =>
    by_cases h : p.2.last_access ≤ q.2.last_access
    · simp [Cache.insertByAccess, h]
    · simp only [Cache.insertByAccess, h, if_false]
      exact (ih.cons q).trans (List.Perm.swap p q rest)

theorem sortByAccess_perm {V : Type} (l : List (String × Cache.CacheEntry V)) :
    (Cache.sortByAccess l).Perm l := by
  induction l with
  | nil => exact List.Perm.refl _
  | cons p rest ih =>
    exact (insertByAccess_perm p (Cache.sortByAccess rest)).trans (ih.cons p)

theorem sortByAccess_keys_nodup {V : Type} {l : List (String × Cache.CacheEntry V)}
    (h : (l.map Prod.fst).Nodup) : ((Cache.sortByAccess l).map Prod.fst).Nodup := by
  exact (((sortByAccess_perm l).map Prod.fst).nodup_iff).mpr h

theorem filter_keys_nodup {V : Type} (p : String × Cache.CacheEntry V → Bool)
    {l : List (String × Cache.CacheEntry V)}
    (h : (l.map Prod.fst).Nodup) : ((l.filter p).map Prod.fst).Nodup := by
  exact h.sublist ((List.filter_sublist l).map Prod.fst)

/-- Witness for C10 at a concrete cache state with 4 accesses and 1 hit. -/
theorem c10_witness :
    (Cache.get_stats (V := Nat) 100 ⟨[], 0, 4, 1⟩).hit_rate = (1 : Rat) / 4
    ∧ (Cache.get_stats (V := Nat) 100 ⟨[], 0, 4, 1⟩).cache_misses = 3 := by
  have h := c10_get_stats_no_division_by_zero (V := Nat) 100 ⟨[], 0, 4, 1⟩
  refine ⟨?_, by simpa using h.2.2⟩
  have h1 := (h.1 (by norm_num)).1
  norm_num at h1 ⊢
  exact h1

theorem evictLoop_freed {V : Type} (mx : Int) (needed : Nat) (cs : Int)
    (S : List (String × Cache.CacheEntry V)) (freed : Nat)
    (hnd : (S.map Prod.fst).Nodup) :
    ((Cache.evictLoop mx needed cs S freed).2 : Int) =
      (freed : Int) +
        Cache.sumSizes
          (S.filter (fun kv => (Cache.evictLoop mx needed cs S freed).1.contains kv.1)) := by
  induction S generalizing freed with
  | nil => simp [Cache.evictLoop, sumSizes_nil]
  | cons ke rest ih =>
    rcases ke with ⟨k, e⟩
    by_cases hbreak : cs + (needed : Int) - (freed : Int) ≤ mx
    · simp [Cache.evictLoop, hbreak, sumSizes_nil, List.filter]
    · have hk : k ∉ rest.map Prod.fst := (List.nodup_cons.mp hnd).1
      have hrec := ih (freed + e.size) (List.nodup_cons.mp hnd).2
      simp only [Cache.evictLoop, hbreak, if_false]
      set r := Cache.evictLoop mx needed cs rest (freed + e.size) with hr
      have hcfilter : rest.filter (fun kv => (k :: r.1).contains kv.1) =
          rest.filter (fun kv => r.1.contains kv.1) := by
        refine List.filter_congr ?_
        intro kv hkv
        have hne : (kv.1 == k) = false := by
          refine beq_eq_false_iff_ne.mpr ?_
          intro hEq
          exact hk (hEq ▸ List.mem_map_of_mem Prod.fst hkv)
        rw [List.contains_cons, hne, Bool.false_or]
      have hhead : ((k :: r.1).contains k) = true := by
        rw [List.contains_cons]
        simp
      simp only [List.filter_cons, hhead, if_true, sumSizes_cons, hcfilter]
      rw [hrec]
      push_cast
      ring

theorem evictLoop_stop {V : Type} (mx : Int) (needed : Nat) (cs : Int)
    (S : List (String × Cache.CacheEntry V)) (freed : Nat) :
    cs + (needed : Int) - ((Cache.evictLoop mx needed cs S freed).2 : Int) ≤ mx
    ∨ ∀ kv ∈ S, (Cache.evictLoop mx needed cs S freed).1.contains kv.1 = true := by
  induction S generalizing freed with
  | nil => right; intro kv hkv; cases hkv
  | cons ke rest ih =>
    rcases ke with ⟨k, e⟩
    by_cases hbreak : cs + (needed : Int) - (freed : Int) ≤ mx
    · left
      simp only [Cache.evictLoop, hbreak, if_true]
    · simp only [Cache.evictLoop, hbreak, if_false]
      rcases ih (freed + e.size) with h | h
      · left; exact h
      · right
        intro kv hkv
        rcases List.mem_cons.mp hkv with hkv | hkv
        · subst hkv
          rw [List.contains_cons]
          simp
        · rw [List.contains_cons, h kv hkv, Bool.or_true]

theorem ensure_space_WF {V : Type} (mx : Int) (needed : Nat) (s : Cache.CacheState V)
    (hwf : Cache.WF s) : Cache.WF (Cache.ensure_space mx needed s) := by
  unfold Cache.ensure_space
  split_ifs with hfit
  · exact hwf
  · have hndS : ((Cache.sortByAccess s.memory).map Prod.fst).Nodup :=
      sortByAccess_keys_nodup hwf.1
    set S := Cache.sortByAccess s.memory with hS
    set r := Cache.evictLoop mx needed s.current_size S 0 with hr
    have hfreed : (r.2 : Int) = Cache.sumSizes (S.filter (fun kv => r.1.contains kv.1)) := by
      simpa using evictLoop_freed mx needed s.current_size S 0 hndS
    have hfreed' : (r.2 : Int) =
        Cache.sumSizes (s.memory.filter (fun kv => r.1.contains kv.1)) := by
      rw [hfreed]
      exact sumSizes_perm ((sortByAccess_perm s.memory).filter _)
    refine ⟨filter_keys_nodup _ hwf.1, ?_⟩
    have hpart : Cache.sumSizes s.memory =
        Cache.sumSizes (s.memory.filter (fun kv => r.1.contains kv.1)) +
          Cache.sumSizes (s.memory.filter (fun kv => !(r.1.contains kv.1))) := by
      simpa using sumSizes_filter_partition (fun kv => r.1.contains kv.1) s.memory
    have hsum : Cache.sumSizes s.memory = s.current_size := hwf.2
    show Cache.sumSizes (s.memory.filter (fun kv => !(r.1.contains kv.1))) =
      s.current_size - (r.2 : Int)
    omega

theorem ensure_space_fits {V : Type} (mx : Int) (needed : Nat) (s : Cache.CacheState V)
    (hwf : Cache.WF s) (hneed : (needed : Int) ≤ mx) :
    (Cache.ensure_space mx needed s).current_size + (needed : Int) ≤ mx := by
  unfold Cache.ensure_space
  split_ifs with hfit
  · exact hfit
  · have hndS : ((Cache.sortByAccess s.memory).map Prod.fst).Nodup :=
      sortByAccess_keys_nodup hwf.1
    set S := Cache.sortByAccess s.memory with hS
    set r := Cache.evictLoop mx needed s.current_size S 0 with hr
    rcases evictLoop_stop mx needed s.current_size S 0 with h | h
    · rw [← hr] at h
      show s.current_size - (r.2 : Int) + (needed : Int) ≤ mx
      omega
    · have hall : S.filter (fun kv => r.1.contains kv.1) = S := List.filter_eq_self.mpr h
      have hfreed : (r.2 : Int) = Cache.sumSizes (S.filter (fun kv => r.1.contains kv.1)) := by
        simpa using evictLoop_freed mx needed s.current_size S 0 hndS
      have hSsum : Cache.sumSizes S = s.current_size := by
        rw [sumSizes_perm (sortByAccess_perm s.memory)]
        exact hwf.2
      have hfinal : (r.2 : Int) = s.current_size := by rw [hfreed, hall, hSsum]
      show s.current_size - (r.2 : Int) + (needed : Int) ≤ mx
      omega

theorem ensure_space_keys_nodup {V : Type} (mx : Int) (needed : Nat) (s : Cache.CacheState V)
    (hnd : (s.memory.map Prod.fst).Nodup) :
    ((Cache.ensure_space mx needed s).memory.map Prod.fst).Nodup := by
  unfold Cache.ensure_space
  split_ifs with hfit
  · exact hnd
  · exact filter_keys_nodup _ hnd

theorem lookupEntry_setEntry_self {V : Type} (mem : List (String × Cache.CacheEntry V))
    (key : String) (e : Cache.CacheEntry V) :
    Cache.lookupEntry (Cache.setEntry mem key e) key = some e := by
  induction mem with
  | nil => simp [Cache.setEntry, Cache.lookupEntry, List.find?]
  | cons ko rest ih =>
    rcases ko with ⟨k, o⟩
    by_cases hk : (k == key) = true
    · simp [Cache.setEntry, Cache.lookupEntry, hk, List.find?]
    · simpa [Cache.setEntry, Cache.lookupEntry, hk, List.find?] using ih

theorem keys_setEntry_of_lookup_some {V : Type} {mem : List (String × Cache.CacheEntry V)}
    {key : String} {old : Cache.CacheEntry V} (e : Cache.CacheEntry V)
    (h : Cache.lookupEntry mem key = some old) :
    (Cache.setEntry mem key e).map Prod.fst = mem.map Prod.fst := by
  induction mem with
  | nil => simp [Cache.lookupEntry, List.find?] at h
  | cons ko rest ih =>
    rcases ko with ⟨k, o⟩
    by_cases hk : (k == key) = true
    · simp [Cache.setEntry, hk, eq_of_beq hk]
    · have h' : Cache.lookupEntry rest key = some old := by
        simpa [Cache.lookupEntry, List.find?, hk] using h
      simp [Cache.setEntry, hk, ih h']

theorem sumSizes_setEntry_of_lookup_some {V : Type} {mem : List (String × Cache.CacheEntry V)}
    {key : String} {old : Cache.CacheEntry V} (e : Cache.CacheEntry V)
    (h : Cache.lookupEntry mem key = some old) :
    Cache.sumSizes (Cache.setEntry mem key e) =
      Cache.sumSizes mem - (old.size : Int) + (e.size : Int) := by
  induction mem with
  | nil => simp [Cache.lookupEntry, List.find?] at h
  | cons ko rest ih =>
    rcases ko with ⟨k, o⟩
    by_cases hk : (k == key) = true
    · have hko : o = old := by
        simpa [Cache.lookupEntry, List.find?, hk] using h
      subst hko
      simp only [Cache.setEntry, hk, if_true, sumSizes_cons]
      ring
    · have h' : Cache.lookupEntry rest key = some old := by
        simpa [Cache.lookupEntry, List.find?, hk] using h
      simp only [Cache.setEntry, hk, Bool.false_eq_true, if_false, sumSizes_cons, ih h']
      ring

theorem setEntry_of_lookup_none {V : Type} {mem : List (String × Cache.CacheEntry V)}
    {key : String} (e : Cache.CacheEntry V)
    (h : Cache.lookupEntry mem key = none) :
    Cache.setEntry mem key e = mem ++ [(key, e)] := by
  induction mem with
  | nil => rfl
  | cons ko rest ih =>
    rcases ko with ⟨k, o⟩
    by_cases hk : (k == key) = true
    · simp [Cache.lookupEntry, List.find?, hk] at h
    · have h' : Cache.lookupEntry rest key = none := by
        simpa [Cache.lookupEntry, List.find?, hk] using h
      simp [Cache.setEntry, hk, ih h']

theorem lookup_none_key_not_mem {V : Type} {mem : List (String × Cache.CacheEntry V)}
    {key : String} (h : Cache.lookupEntry mem key = none) :
    key ∉ mem.map Prod.fst := by
  intro hmem
  rcases List.mem_map.mp hmem with ⟨kv, hkv, hfst⟩
  unfold Cache.lookupEntry at h
  cases hfind : mem.find? (fun kv => kv.1 == key) with
  | some kv' => rw [hfind] at h; cases h
  | none =>
    have := List.find?_eq_none.mp hfind kv hkv
    simp [hfst] at this

theorem key_not_mem_delKey {V : Type} (mem : List (String × Cache.CacheEntry V))
    (key : String) (hnd : (mem.map Prod.fst).Nodup) :
    key ∉ (Cache.delKey mem key).map Prod.fst := by
  induction mem with
  | nil => simp [Cache.delKey]
  | cons ko rest ih =>
    rcases ko with ⟨k, o⟩
    by_cases hk : (k == key) = true
    · have hkey : k = key := eq_of_beq hk
      subst hkey
      simpa [Cache.delKey] using (List.nodup_cons.mp hnd).1
    · intro hmem
      simp only [Cache.delKey, hk, Bool.false_eq_true, if_false, List.map_cons,
        List.mem_cons] at hmem
      rcases hmem with hmem | hmem
      · exact (beq_eq_false_iff_ne.mp (by simpa using hk)) hmem.symm
      · exact ih (List.nodup_cons.mp hnd).2 hmem

theorem set_WF {V : Type} (serializeLen : V → Option Nat) (mx dttl : Int) (now : Rat)
    (key : String) (value : V) (topt : Option Int) (s : Cache.CacheState V)
    (hwf : Cache.WF s) :
    Cache.WF (Cache.set serializeLen mx dttl now key value topt s) := by
  unfold Cache.set
  cases hser : serializeLen value with
  | none => exact hwf
  | some size =>
    have hwf1 := ensure_space_WF mx size s hwf
    set s1 := Cache.ensure_space mx size s with hs1
    cases hl : Cache.lookupEntry s1.memory key with
    | some old =>
      simp only [hl]
      refine ⟨?_, ?_⟩
      · rw [keys_setEntry_of_lookup_some _ hl]
        exact hwf1.1
      · rw [sumSizes_setEntry_of_lookup_some _ hl, hwf1.2]
    | none =>
      simp only [hl]
      refine ⟨?_, ?_⟩
      · rw [setEntry_of_lookup_none _ hl, List.map_append]
        refine List.nodup_append.mpr ⟨hwf1.1, List.nodup_singleton _, ?_⟩
        intro x hx hx'
        simp only [List.map_cons, List.map_nil, List.mem_singleton] at hx'
        subst hx'
        exact lookup_none_key_not_mem hl hx
      · rw [setEntry_of_lookup_none _ hl, sumSizes_append, hwf1.2, sumSizes_cons, sumSizes_nil]
        ring

theorem set_size_le {V : Type} (serializeLen : V → Option Nat) (mx dttl : Int) (now : Rat)
    (key : String) (value : V) (topt : Option Int) (s : Cache.CacheState V)
    (hwf : Cache.WF s) (hcs : s.current_size ≤ mx)
    (hbound : ∀ n, serializeLen value = some n → (n : Int) ≤ mx) :
    (Cache.set serializeLen mx dttl now key value topt s).current_size ≤ mx := by
  unfold Cache.set
  cases hser : serializeLen value with
  | none => exact hcs
  | some size =>
    have hfit := ensure_space_fits mx size s hwf (hbound size hser)
    set s1 := Cache.ensure_space mx size s with hs1
    cases hl : Cache.lookupEntry s1.memory key with
    | some old =>
      simp only [hl]
      show s1.current_size - (old.size : Int) + (size : Int) ≤ mx
      have : (0 : Int) ≤ (old.size : Int) := by positivity
      omega
    | none =>
      simp only [hl]
      show s1.current_size + (size : Int) ≤ mx
      omega

theorem applyOps_invariant {V : Type} (serializeLen : V → Option Nat) (mx dttl : Int)
    (ops : List (Cache.SetOp V)) (s : Cache.CacheState V) (hwf : Cache.WF s) :
    Cache.WF (ops.foldl
      (fun t op => Cache.set serializeLen mx dttl op.now op.key op.value op.ttl t) s)
    ∧ (s.current_size ≤ mx →
        (∀ op ∈ ops, ∀ n, serializeLen op.value = some n → (n : Int) ≤ mx) →
        (ops.foldl
          (fun t op => Cache.set serializeLen mx dttl op.now op.key op.value op.ttl t)
          s).current_size ≤ mx) := by
  induction ops generalizing s with
  | nil => exact ⟨hwf, fun hcs _ => hcs⟩
  | cons op rest ih =>
    have hwf1 := set_WF serializeLen mx dttl op.now op.key op.value op.ttl s hwf
    refine ⟨(ih _ hwf1).1, fun hcs hb => ?_⟩
    have hcs1 := set_size_le serializeLen mx dttl op.now op.key op.value op.ttl s hwf hcs
      (hb op (List.mem_cons_self op rest))
    exact (ih _ hwf1).2 hcs1 (fun o ho => hb o (List.mem_cons_of_mem op ho))

/-- C3 (amended): the aggregate-size bookkeeping is exact after any sequence
of `Set`s (`sum(entry.size) == current_size` always holds), and when every
value that serializes at all serializes to at most `max_bytes`, the
aggregate stays within `max_bytes`.  A single oversized value, however, is
NOT rejected (see the counterexample): it is admitted after evicting
everything else, and `current_size` then exceeds `max_bytes`. -/
theorem c3_cache_size_invariant {V : Type} (serializeLen : V → Option Nat)
    (mx dttl : Int) (ops : List (Cache.SetOp V)) (h0 : 0 ≤ mx) :
    Cache.sumSizes (Cache.applyOps serializeLen mx dttl ops).memory =
      (Cache.applyOps serializeLen mx dttl ops).current_size
    ∧ ((∀ op ∈ ops, ∀ n, serializeLen op.value = some n → (n : Int) ≤ mx) →
        (Cache.applyOps serializeLen mx dttl ops).current_size ≤ mx) := by
  have hwf0 : Cache.WF ({} : Cache.CacheState V) := ⟨List.nodup_nil, rfl⟩
  have h := applyOps_invariant serializeLen mx dttl ops {} hwf0
  exact ⟨h.1.2, fun hb => h.2 h0 hb⟩

/-- Witness for C3 at a concrete run: two `Set`s of sizes 5 and 6 against a
10-byte cache (the second evicts the first). -/
theorem c3_witness :
    Cache.sumSizes
        (Cache.applyOps Cache.natSize 10 3600
          [⟨0, "a", 5, none⟩, ⟨1, "b", 6, none⟩]).memory =
      (Cache.applyOps Cache.natSize 10 3600
        [⟨0, "a", 5, none⟩, ⟨1, "b", 6, none⟩]).current_size
    ∧ (Cache.applyOps Cache.natSize 10 3600
        [⟨0, "a", 5, none⟩, ⟨1, "b", 6, none⟩]).current_size ≤ 10 := by
  have h := c3_cache_size_invariant (V := Nat) Cache.natSize 10 3600
    [⟨0, "a", 5, none⟩, ⟨1, "b", 6, none⟩] (by norm_num)
  refine ⟨h.1, h.2 ?_⟩
  intro op hop n hn
  simp only [List.mem_cons, List.not_mem_nil, or_false] at hop
  rcases hop with rfl | rfl <;>
    · simp only [Cache.natSize, Option.some.injEq] at hn
      omega

/-- C3 counterexample: with `max_bytes = 10`, a single `Set` of a value of
serialized size 11 is admitted — the entry lands in the cache and
`current_size` becomes 11 > `max_bytes` — contradicting the claim that such
a value is rejected and that `current_size ≤ max_bytes` afterwards. -/
theorem c3_counterexample :
    (Cache.set Cache.natSize 10 3600 0 "k" 11 none {}).memory.map Prod.fst = ["k"]
    ∧ (Cache.set Cache.natSize 10 3600 0 "k" 11 none {}).current_size = 11
    ∧ ¬ (Cache.set Cache.natSize 10 3600 0 "k" 11 none {}).current_size ≤ 10 := by
  decide

theorem evictLoop_keys_eq_spec {V : Type} (mx : Int) (needed : Nat) (cs : Int)
    (S : List (String × Cache.CacheEntry V)) (freed : Nat) :
    (Cache.evictLoop mx needed cs S freed).1 =
      Cache.specEvictKeys mx needed (cs - (freed : Int)) S := by
  induction S generalizing freed with
  | nil => simp [Cache.evictLoop, Cache.specEvictKeys]
  | cons ke rest ih =>
    rcases ke with ⟨k, e⟩
    by_cases hb : cs + (needed : Int) - (freed : Int) ≤ mx
    · have hb' : cs - (freed : Int) + (needed : Int) ≤ mx := by omega
      simp [Cache.evictLoop, Cache.specEvictKeys, hb, hb']
    · have hb' : ¬(cs - (freed : Int) + (needed : Int) ≤ mx) := by omega
      simp only [Cache.evictLoop, Cache.specEvictKeys, hb, hb', if_false]
      rw [ih (freed + e.size)]
      congr 1
      push_cast
      ring_nf

theorem ensure_space_eq_amended {V : Type} (mx : Int) (needed : Nat) (s : Cache.CacheState V)
    (hnd : (s.memory.map Prod.fst).Nodup) :
    Cache.ensure_space mx needed s =
      (let doomed := if s.current_size + (needed : Int) ≤ mx then ([] : List String)
        else Cache.specEvictKeys mx needed s.current_size (Cache.sortByAccess s.memory)
       { s with
         memory := s.memory.filter (fun kv => !(doomed.contains kv.1))
         current_size := s.current_size -
           Cache.sumSizes (s.memory.filter (fun kv => doomed.contains kv.1)) }) := by
  unfold Cache.ensure_space
  split_ifs with hfit
  · have hmem : s.memory.filter
        (fun kv => !(([] : List String).contains kv.1)) = s.memory := by
      rw [show (fun kv : String × Cache.CacheEntry V => !(([] : List String).contains kv.1)) =
        (fun _ => true) from rfl]
      exact List.filter_true s.memory
    have hzero : Cache.sumSizes
        (s.memory.filter (fun kv => ([] : List String).contains kv.1)) = 0 := by
      rw [show (fun kv : String × Cache.CacheEntry V => (([] : List String).contains kv.1)) =
        (fun _ => false) from rfl]
      rw [List.filter_false]
      rfl
    show s =
      { s with
        memory := s.memory.filter (fun kv => !(([] : List String).contains kv.1))
        current_size := s.current_size -
          Cache.sumSizes (s.memory.filter (fun kv => ([] : List String).contains kv.1)) }
    rw [hmem, hzero, sub_zero]
  · have hndS := sortByAccess_keys_nodup hnd
    have hkeys : (Cache.evictLoop mx needed s.current_size (Cache.sortByAccess s.memory) 0).1 =
        Cache.specEvictKeys mx needed s.current_size (Cache.sortByAccess s.memory) := by
      rw [evictLoop_keys_eq_spec]
      norm_num
    have hfreed : ((Cache.evictLoop mx needed s.current_size (Cache.sortByAccess s.memory) 0).2 : Int) =
        Cache.sumSizes (s.memory.filter (fun kv =>
          (Cache.evictLoop mx needed s.current_size (Cache.sortByAccess s.memory) 0).1.contains
            kv.1)) := by
      have h1 := evictLoop_freed mx needed s.current_size (Cache.sortByAccess s.memory) 0 hndS
      have h2 : Cache.sumSizes ((Cache.sortByAccess s.memory).filter (fun kv =>
          (Cache.evictLoop mx needed s.current_size (Cache.sortByAccess s.memory) 0).1.contains
            kv.1)) =
          Cache.sumSizes (s.memory.filter (fun kv =>
            (Cache.evictLoop mx needed s.current_size (Cache.sortByAccess s.memory) 0).1.contains
              kv.1)) :=
        sumSizes_perm ((sortByAccess_perm s.memory).filter _)
      rw [h1, h2]
      simp
    show
      { s with
        memory := s.memory.filter (fun kv =>
          !((Cache.evictLoop mx needed s.current_size (Cache.sortByAccess s.memory) 0).1.contains
            kv.1))
        current_size := s.current_size -
          ((Cache.evictLoop mx needed s.current_size (Cache.sortByAccess s.memory) 0).2 : Int) } =
      { s with
        memory := s.memory.filter (fun kv =>
          !((Cache.specEvictKeys mx needed s.current_size
              (Cache.sortByAccess s.memory)).contains kv.1))
        current_size := s.current_size -
          Cache.sumSizes (s.memory.filter (fun kv =>
            (Cache.specEvictKeys mx needed s.current_size
              (Cache.sortByAccess s.memory)).contains kv.1)) }
    rw [hfreed, hkeys]

theorem sortByAccess_const {V : Type} (l : List (String × Cache.CacheEntry V)) (c : Rat)
    (h : ∀ p ∈ l, p.2.last_access = c) : Cache.sortByAccess l = l := by
  induction l with
  | nil => rfl
  | cons p rest ih =>
    have hrest : Cache.sortByAccess rest = rest :=
      ih (fun q hq => h q (List.mem_cons_of_mem p hq))
    show Cache.insertByAccess p (Cache.sortByAccess rest) = p :: rest
    rw [hrest]
    cases rest with
    | nil => rfl
    | cons q rest' =>
      show Cache.insertByAccess p (q :: rest') = p :: q :: rest'
      have hp : p.2.last_access = c := h p (List.mem_cons_self p _)
      have hq : q.2.last_access = c := h q (List.mem_cons_of_mem p (List.mem_cons_self q _))
      simp [Cache.insertByAccess, hp, hq]

/-- C4 (amended): when `Set` admits an entry of serialized size S and the
key already exists, the eviction check runs FIRST, on a `current_size` that
still includes the old entry (evicting, when `current_size + S > max_bytes`,
in ascending order of `last_access` with ties broken by insertion order —
the stable sort leaves all-equal access times in place — until
`current_size + S ≤ max_bytes` or the cache is empty, possibly evicting the
replaced entry itself); only afterwards is the old entry's size subtracted,
if the key survived, and the new entry stored. -/
theorem c4_set_order {V : Type} (serializeLen : V → Option Nat) (mx dttl : Int)
    (now : Rat) (key : String) (value : V) (topt : Option Int) (s : Cache.CacheState V)
    (hnd : (s.memory.map Prod.fst).Nodup) :
    Cache.set serializeLen mx dttl now key value topt s =
      Cache.set_amended serializeLen mx dttl now key value topt s
    ∧ ∀ (l : List (String × Cache.CacheEntry V)) (c : Rat),
        (∀ p ∈ l, p.2.last_access = c) → Cache.sortByAccess l = l := by
  refine ⟨?_, sortByAccess_const⟩
  unfold Cache.set Cache.set_amended
  cases hser : serializeLen value with
  | none => rfl
  | some size =>
    dsimp only
    rw [ensure_space_eq_amended mx size s hnd]

/-- Witness for C4 (amended): applied to the concrete two-entry cache. -/
theorem c4_witness :
    Cache.set Cache.natSize 10 3600 0 "k" 5 none Cache.twoEntryState =
      Cache.set_amended Cache.natSize 10 3600 0 "k" 5 none Cache.twoEntryState :=
  (c4_set_order Cache.natSize 10 3600 0 "k" 5 none Cache.twoEntryState (by decide)).1

/-- C4 counterexample: on the two-entry cache ("a" of size 5 then "k" of
size 4, max 10 bytes), replacing "k" by a size-5 value evicts "a" under the
source order of operations (ensure space first, subtract the old size
after), whereas the claimed order (subtract the old entry's size before the
eviction check) would keep both entries: the claim mispredicts the state. -/
theorem c4_counterexample :
    (Cache.set Cache.natSize 10 3600 1 "k" 5 none Cache.twoEntryState).memory.map Prod.fst =
      ["k"]
    ∧ (Cache.set_subtractFirst Cache.natSize 10 3600 1 "k" 5 none
        Cache.twoEntryState).memory.map Prod.fst = ["a", "k"]
    ∧ Cache.set Cache.natSize 10 3600 1 "k" 5 none Cache.twoEntryState ≠
        Cache.set_subtractFirst Cache.natSize 10 3600 1 "k" 5 none Cache.twoEntryState := by
  decide

theorem setEntry_keys_nodup {V : Type} (mem : List (String × Cache.CacheEntry V))
    (key : String) (e : Cache.CacheEntry V) (hnd : (mem.map Prod.fst).Nodup) :
    ((Cache.setEntry mem key e).map Prod.fst).Nodup := by
  cases hl : Cache.lookupEntry mem key with
  | some old =>
    rw [keys_setEntry_of_lookup_some e hl]
    exact hnd
  | none =>
    rw [setEntry_of_lookup_none e hl, List.map_append]
    refine List.nodup_append.mpr ⟨hnd, List.nodup_singleton _, ?_⟩
    intro x hx hx'
    simp only [List.map_cons, List.map_nil, List.mem_singleton] at hx'
    subst hx'
    exact lookup_none_key_not_mem hl hx

theorem set_memory {V : Type} (serializeLen : V → Option Nat) (mx dttl : Int) (now : Rat)
    (key : String) (value : V) (topt : Option Int) (s : Cache.CacheState V) (n : Nat)
    (hser : serializeLen value = some n) :
    (Cache.set serializeLen mx dttl now key value topt s).memory =
      Cache.setEntry (Cache.ensure_space mx n s).memory key
        { value := value, timestamp := now, ttl := topt.getD dttl, size := n } := by
  unfold Cache.set
  rw [hser]
  dsimp only
  cases hl : Cache.lookupEntry (Cache.ensure_space mx n s).memory key <;> rfl

theorem get_of_lookup_some {V : Type} (now : Rat) (key : String) (s : Cache.CacheState V)
    (e : Cache.CacheEntry V) (h : Cache.lookupEntry s.memory key = some e) :
    Cache.get now key s =
      if e.is_expired now then
        (none,
          { s with
            access_count := s.access_count + 1
            memory := Cache.delKey s.memory key
            current_size := s.current_size - (e.size : Int) })
      else
        (some e.value,
          { s with
            access_count := s.access_count + 1
            memory := Cache.setEntry s.memory key (e.update_access now)
            hit_count := s.hit_count + 1 }) := by
  unfold Cache.get
  dsimp only
  rw [h]

/-- C5 (amended): for a well-formed cache, after `Set(K,V)` at instant
`now` (with V serializable, within the size cap, and a nonnegative TTL),
`Get(K)` at the same instant returns V, and `Get(K)` at any instant `now'`
with `now' − now > ttl` (STRICTLY later than `now + ttl`; at
`now' = now + ttl` the entry is not yet expired and the value is still
returned, see the counterexample) reports a miss: it returns absent,
deletes the entry, and leaves the hit counter untouched. -/
theorem c5_ttl_boundary {V : Type} (serializeLen : V → Option Nat) (mx dttl : Int)
    (now : Rat) (key : String) (value : V) (s : Cache.CacheState V) (n : Nat)
    (hnd : (s.memory.map Prod.fst).Nodup)
    (hser : serializeLen value = some n) (hn : (n : Int) ≤ mx) (httl : 0 ≤ dttl) :
    (Cache.get now key (Cache.set serializeLen mx dttl now key value none s)).1 = some value
    ∧ ∀ now' : Rat, now' - now > (dttl : Rat) →
        (Cache.get now' key (Cache.set serializeLen mx dttl now key value none s)).1 = none
        ∧ key ∉
            ((Cache.get now' key
              (Cache.set serializeLen mx dttl now key value none s)).2.memory.map Prod.fst)
        ∧ (Cache.get now' key
              (Cache.set serializeLen mx dttl now key value none s)).2.hit_count =
            (Cache.set serializeLen mx dttl now key value none s).hit_count := by
  have hmem := set_memory serializeLen mx dttl now key value none s n hser
  have hlook : Cache.lookupEntry
      (Cache.set serializeLen mx dttl now key value none s).memory key =
      some { value := value, timestamp := now, ttl := Option.getD (none : Option Int) dttl,
             size := n } := by
    rw [hmem]
    exact lookupEntry_setEntry_self _ _ _
  have hnd' : ((Cache.set serializeLen mx dttl now key value none s).memory.map
      Prod.fst).Nodup := by
    rw [hmem]
    exact setEntry_keys_nodup _ _ _ (ensure_space_keys_nodup mx n s hnd)
  constructor
  · have hexp : (⟨value, now, Option.getD (none : Option Int) dttl, n, 0, 0⟩ :
        Cache.CacheEntry V).is_expired now = false := by
      simp only [Cache.CacheEntry.is_expired, decide_eq_false_iff_not, not_lt, sub_self,
        Option.getD_none]
      exact_mod_cast httl
    rw [get_of_lookup_some now key _ _ hlook, hexp]
    simp
  · intro now' hgt
    have hexp : (⟨value, now, Option.getD (none : Option Int) dttl, n, 0, 0⟩ :
        Cache.CacheEntry V).is_expired now' = true := by
      simp only [Cache.CacheEntry.is_expired, decide_eq_true_eq, Option.getD_none]
      exact hgt
    have hget := get_of_lookup_some now' key _ _ hlook
    refine ⟨?_, ?_, ?_⟩
    · rw [hget, hexp]
      simp
    · rw [hget, hexp]
      simp only [if_true]
      exact key_not_mem_delKey _ key hnd'
    · rw [hget, hexp]
      simp

/-- Witness for C5 (amended): concrete 42-byte value, 100-byte cache,
TTL 10, set at instant 0; Get at 0 hits, Get at 11 misses. -/
theorem c5_witness :
    (Cache.get 0 "k" (Cache.set Cache.natSize 100 10 0 "k" (42 : Nat) none {})).1 = some 42
    ∧ (Cache.get 11 "k" (Cache.set Cache.natSize 100 10 0 "k" (42 : Nat) none {})).1 =
        none := by
  have h := c5_ttl_boundary Cache.natSize 100 10 0 "k" (42 : Nat) {} 42 (by simp) rfl
    (by norm_num) (by norm_num)
  exact ⟨h.1, (h.2 11 (by norm_num)).1⟩

/-- C5 counterexample: TTL 10, entry set at instant 0; at instant 10 we
have `now ≥ timestamp + ttl`, yet `Get` still returns the value — the code
expires an entry only when `now − timestamp > ttl` holds strictly, so the
claim's "absent for every now ≥ timestamp(Set) + ttl" fails at the
boundary. -/
theorem c5_counterexample :
    (10 : Rat) ≥ 0 + 10
    ∧ (Cache.get 10 "k" (Cache.set Cache.natSize 100 10 0 "k" (42 : Nat) none {})).1 =
        some 42 := by
  refine ⟨by norm_num, ?_⟩
  have hmem := set_memory Cache.natSize 100 10 0 "k" (42 : Nat) none {} 42 rfl
  have hlook : Cache.lookupEntry
      (Cache.set Cache.natSize 100 10 0 "k" (42 : Nat) none {}).memory "k" =
      some ⟨42, 0, Option.getD (none : Option Int) 10, 42, 0, 0⟩ := by
    rw [hmem]
    exact lookupEntry_setEntry_self _ _ _
  have hexp : (⟨42, 0, Option.getD (none : Option Int) 10, 42, 0, 0⟩ :
      Cache.CacheEntry Nat).is_expired 10 = false := by
    simp only [Cache.CacheEntry.is_expired, decide_eq_false_iff_not, not_lt, Option.getD_none]
    norm_num
  rw [get_of_lookup_some 10 "k" _ _ hlook, hexp]
  simp

theorem update_certificate_metrics_counters (m : Metrics.MetricsState)
    (cd : Metrics.CertRecord) :
    (Metrics.update_certificate_metrics m cd).current_scan_parse_errors =
      m.current_scan_parse_errors
    ∧ (Metrics.update_certificate_metrics m cd).ssl_certs_parsed_total =
        m.ssl_certs_parsed_total
    ∧ (Metrics.update_certificate_metrics m cd).ssl_cert_parse_errors_total =
        m.ssl_cert_parse_errors_total := by
  simp only [Metrics.update_certificate_metrics]
  split_ifs <;> simp

theorem countP_isSome_add_isNone {α : Type} (files : List (Option α)) :
    files.countP (fun f => f.isSome) + files.countP (fun f => f.isNone) = files.length := by
  induction files with
  | nil => simp
  | cons f rest ih =>
    cases f <;> simp [List.countP_cons, ih] <;> omega

theorem processFold_spec (files : List (Option Metrics.CertRecord))
    (acc : Metrics.MetricsState × Nat × Nat) :
    (files.foldl Scanner.processFileStep acc).1.current_scan_parse_errors =
      acc.1.current_scan_parse_errors + files.countP (fun f => f.isNone)
    ∧ (files.foldl Scanner.processFileStep acc).1.ssl_certs_parsed_total =
        acc.1.ssl_certs_parsed_total
    ∧ (files.foldl Scanner.processFileStep acc).1.ssl_cert_parse_errors_total =
        acc.1.ssl_cert_parse_errors_total
    ∧ (files.foldl Scanner.processFileStep acc).2.1 =
        acc.2.1 + files.countP (fun f => f.isSome)
    ∧ (files.foldl Scanner.processFileStep acc).2.2 =
        acc.2.2 + files.countP (fun f => f.isNone) := by
  induction files generalizing acc with
  | nil => simp
  | cons f rest ih =>
    cases f with
    | some cd =>
      have hstep := update_certificate_metrics_counters acc.1 cd
      have := ih (Scanner.processFileStep acc (some cd))
      simp only [List.foldl_cons] at *
      refine ⟨?_, ?_, ?_, ?_, ?_⟩ <;>
        simp_all [Scanner.processFileStep, List.countP_cons] <;> omega
    | none =>
      have := ih (Scanner.processFileStep acc none)
      simp only [List.foldl_cons] at *
      refine ⟨?_, ?_, ?_, ?_, ?_⟩ <;>
        simp_all [Scanner.processFileStep, Metrics.record_parse_error, List.countP_cons] <;>
        omega

theorem scanDirs_allOk (dirs : List (String × Scanner.DirOutcome))
    (m : Metrics.MetricsState)
    (h : ∀ d ∈ dirs, d.2 ≠ Scanner.DirOutcome.failure) :
    (Scanner.scanDirs m dirs).1.current_scan_parse_errors =
      m.current_scan_parse_errors + (dirs.map (fun d => Scanner.dirErrorCount d.2)).sum
    ∧ (Scanner.scanDirs m dirs).1.ssl_cert_parse_errors_total =
        (if dirs.isEmpty then m.ssl_cert_parse_errors_total
         else ((m.current_scan_parse_errors +
            (dirs.map (fun d => Scanner.dirErrorCount d.2)).sum : Nat) : Int))
    ∧ (Scanner.scanDirs m dirs).1.ssl_certs_parsed_total =
        (match dirs.getLast? with
         | none => m.ssl_certs_parsed_total
         | some d => (Scanner.dirParsedCount d.2 : Int)) := by
  induction dirs generalizing m with
  | nil => exact ⟨by simp [Scanner.scanDirs], by simp [Scanner.scanDirs], rfl⟩
  | cons d rest ih =>
    rcases d with ⟨directory, outcome⟩
    cases outcome with
    | failure =>
      exact absurd rfl (h (directory, Scanner.DirOutcome.failure) (List.mem_cons_self _ _))
    | ok files =>
      have hpr := processFold_spec files (m, 0, 0)
      have hrest := ih (Metrics.update_scan_metrics
        (Scanner.processDirFiles m files).1 directory 0 files.length
        (Scanner.processDirFiles m files).2.1 (Scanner.processDirFiles m files).2.2)
        (fun x hx => h x (List.mem_cons_of_mem _ hx))
      simp only [Scanner.scanDirs]
      simp only [Scanner.processDirFiles] at hrest hpr ⊢
      refine ⟨?_, ?_, ?_⟩
      · rw [hrest.1]
        simp only [Metrics.update_scan_metrics, hpr.1, List.map_cons, List.sum_cons,
          Scanner.dirErrorCount]
        omega
      · rw [hrest.2.1]
        cases rest with
        | nil =>
          simp only [List.isEmpty_cons, List.isEmpty_nil, if_true, if_false,
            Metrics.update_scan_metrics, hpr.1, List.map_cons, List.map_nil, List.sum_cons,
            List.sum_nil, Scanner.dirErrorCount]
          push_cast
          ring
        | cons d' rest' =>
          simp only [List.isEmpty_cons, Metrics.update_scan_metrics, hpr.1, List.map_cons,
            List.sum_cons, Scanner.dirErrorCount]
          push_cast
          ring_nf
      · rw [hrest.2.2]
        cases rest with
        | nil =>
          simp only [List.getLast?_nil, List.getLast?_singleton, Metrics.update_scan_metrics,
            hpr.2.2.2.1, Scanner.dirParsedCount]
          omega
        | cons d' rest' =>
          rw [List.getLast?_cons_cons]
          cases hl : (d' :: rest').getLast? with
          | none =>
            exact absurd hl (by simp)
          | some dl => rfl

/-- C1 counterexample: with two configured directories, the first holding a
single successfully parsed certificate file and the second none, the
post-scan gauges read `ssl_certs_parsed_total = 0` (the gauge is set from
the LAST directory's per-directory parsed count) and
`ssl_cert_parse_errors_total = 0`, so their sum is 0 while the number of
files considered after exclusion across all directories is 1. -/
theorem c1_counterexample :
    (Scanner.scan_once [("d1", Scanner.DirOutcome.ok [some {}]),
        ("d2", Scanner.DirOutcome.ok [])] {}).1.ssl_certs_parsed_total +
      (Scanner.scan_once [("d1", Scanner.DirOutcome.ok [some {}]),
        ("d2", Scanner.DirOutcome.ok [])] {}).1.ssl_cert_parse_errors_total = 0
    ∧ (Scanner.scan_once [("d1", Scanner.DirOutcome.ok [some {}]),
        ("d2", Scanner.DirOutcome.ok [])] {}).2.total_files = 1 := by
  decide

/-- C1 (amended): on a scan in which every configured directory is readable,
`ssl_cert_parse_errors_total` is published from the error counter
accumulated over ALL directories of the scan, but `ssl_certs_parsed_total`
is set to the LAST directory's per-directory parsed count (not an
accumulated value); consequently the claimed identity
`ssl_certs_parsed_total + ssl_cert_parse_errors_total = files considered
after exclusion` holds when exactly one directory is configured. -/
theorem c1_scan_gauges (dirs : List (String × Scanner.DirOutcome))
    (m0 : Metrics.MetricsState)
    (h : ∀ d ∈ dirs, d.2 ≠ Scanner.DirOutcome.failure) :
    (Scanner.scan_once dirs m0).1.ssl_cert_parse_errors_total =
      (((dirs.map (fun d => Scanner.dirErrorCount d.2)).sum : Nat) : Int)
    ∧ (Scanner.scan_once dirs m0).1.ssl_certs_parsed_total =
        (match dirs.getLast? with
         | none => 0
         | some d => (Scanner.dirParsedCount d.2 : Int))
    ∧ (∀ directory files, dirs = [(directory, Scanner.DirOutcome.ok files)] →
        (Scanner.scan_once dirs m0).1.ssl_certs_parsed_total +
          (Scanner.scan_once dirs m0).1.ssl_cert_parse_errors_total =
          (files.length : Int)) := by
  have hs := scanDirs_allOk dirs (Metrics.reset_scan_metrics m0) h
  have herr : (Scanner.scan_once dirs m0).1.ssl_cert_parse_errors_total =
      (((dirs.map (fun d => Scanner.dirErrorCount d.2)).sum : Nat) : Int) := by
    show (Scanner.scanDirs (Metrics.reset_scan_metrics m0) dirs).1.ssl_cert_parse_errors_total = _
    rw [hs.2.1]
    cases dirs with
    | nil => simp [Metrics.reset_scan_metrics]
    | cons d rest => simp [Metrics.reset_scan_metrics]
  have hparsed : (Scanner.scan_once dirs m0).1.ssl_certs_parsed_total =
      (match dirs.getLast? with
       | none => 0
       | some d => (Scanner.dirParsedCount d.2 : Int)) := by
    show (Scanner.scanDirs (Metrics.reset_scan_metrics m0) dirs).1.ssl_certs_parsed_total = _
    rw [hs.2.2]
    cases hl : dirs.getLast? with
    | none => simp [Metrics.reset_scan_metrics]
    | some d => rfl
  refine ⟨herr, hparsed, ?_⟩
  intro directory files hdirs
  subst hdirs
  rw [herr, hparsed]
  simp only [List.getLast?_singleton, List.map_cons, List.map_nil, List.sum_cons,
    List.sum_nil, Scanner.dirErrorCount, Scanner.dirParsedCount]
  have := countP_isSome_add_isNone files
  push_cast
  omega

/-- Witness for C1 (amended) on a one-directory scan with one parsed file
and one parse failure. -/
theorem c1_witness :
    (Scanner.scan_once [("d", Scanner.DirOutcome.ok [some {}, none])] {}).1.ssl_certs_parsed_total
      + (Scanner.scan_once
          [("d", Scanner.DirOutcome.ok [some {}, none])] {}).1.ssl_cert_parse_errors_total =
      2 := by
  have h := c1_scan_gauges [("d", Scanner.DirOutcome.ok [some {}, none])] {}
    (by intro d hd; rcases List.mem_singleton.mp hd with rfl; simp)
  have h3 := h.2.2 "d" [some {}, none] rfl
  simpa using h3

end TlsCertMonitor
